import Mathlib

set_option linter.unusedVariables false
set_option maxHeartbeats 1000000
set_option maxRecDepth 40000

/-!
Shallow embedding of `src/pie.h` (PIE — Palette Indexed Encoding, version 2.0.0).

Byte memories (`pie_u8 *`) are modelled as functions `Nat → Nat`; every load of a
`pie_u8` goes through `byte`, which reduces modulo 256, exactly as a C byte load
does.  Machine integers are `Nat` with explicit `% 2^w` where the C code can
wrap (the single-byte palette color counter `color_count` wraps modulo 256).
The C allocator callbacks are modelled away: buffers the code writes are
produced as Lean lists, in the order the C code writes their bytes.
-/

/-- A `pie_u8` load from byte memory `b` at offset `i`. -/
def byte (b : Nat → Nat) (i : Nat) : Nat := b i % 256

/-- `#define PIE_IMAGE_HAS_ALPHA 1` (src/pie.h:122). -/
def PIE_IMAGE_HAS_ALPHA : Nat := 1

/-- `#define PIE_IMAGE_HAS_PALETTE 2` (src/pie.h:123). -/
def PIE_IMAGE_HAS_PALETTE : Nat := 2

/-- The `pie_header` struct (src/pie.h:125-132): magic `u8[3]`, version `u8`,
flags `u32`, width `u16`, height `u16`, length `u32`; 16 bytes, no padding. -/
structure pie_header where
  magic : List Nat
  version : Nat
  flags : Nat
  width : Nat
  height : Nat
  length : Nat
deriving DecidableEq, Repr

/-- Little-endian 16-bit load at offset `o`. -/
def le16 (b : Nat → Nat) (o : Nat) : Nat := byte b o + byte b (o + 1) * 256

/-- Little-endian 32-bit load at offset `o`. -/
def le32 (b : Nat → Nat) (o : Nat) : Nat :=
  byte b o + byte b (o + 1) * 256 + byte b (o + 2) * 65536 + byte b (o + 3) * 16777216

/-- `pie_header_from_bytes` (src/pie.h:152-155): `return *(pie_header *)b;` —
reinterprets the first 16 bytes as the little-endian header, no validation. -/
def pie_header_from_bytes (b : Nat → Nat) : pie_header :=
  { magic := [byte b 0, byte b 1, byte b 2]
    version := byte b 3
    flags := le32 b 4
    width := le16 b 8
    height := le16 b 10
    length := le32 b 12 }

/-- `pie_stride` (src/pie.h:157-160): `3 + (h->flags & PIE_IMAGE_HAS_ALPHA)`. -/
def pie_stride (h : pie_header) : Nat := 3 + (h.flags &&& PIE_IMAGE_HAS_ALPHA)

/-- `pie_has_embedded_palette` (src/pie.h:162-165): `h->flags & PIE_IMAGE_HAS_PALETTE`. -/
def pie_has_embedded_palette (h : pie_header) : Nat := h.flags &&& PIE_IMAGE_HAS_PALETTE

/-- The packed `pie_u32` color of pixel `i` (src/pie.h:246-250):
`r | (g << 8) | (b << 16)`, plus `a << 24` when the stride is 4. -/
def packColor (px : Nat → Nat) (stride i : Nat) : Nat :=
  byte px (i * stride) ||| byte px (i * stride + 1) <<< 8 |||
    byte px (i * stride + 2) <<< 16 |||
    (if stride = 4 then byte px (i * stride + 3) <<< 24 else 0)

/-- The packed colors of pixels `0, …, n-1` in scan order. -/
def colorList (px : Nat → Nat) (stride n : Nat) : List Nat :=
  (List.range n).map (packColor px stride)

/-- State of the palette-discovery loop (src/pie.h:242-272): the `colors` array,
the `pie_u8` counter `color_count`, and the `indices` written so far. -/
structure ScanState where
  colors : Nat → Nat
  cc : Nat
  indices : List Nat

/-- Initial scan state: both scratch arrays are explicitly zeroed
(src/pie.h:237-240) and the counter starts at 0. -/
def scanInit : ScanState := ⟨fun _ => 0, 0, []⟩

/-- The `color_index` computation (src/pie.h:253-259): starts at `color_count`
and the linear scan overwrites it with the first `j < color_count` such that
`colors[j] == color`, if any. -/
def scanIdx (s : ScanState) (color : Nat) : Nat :=
  ((List.range s.cc).find? (fun j => s.colors j == color)).getD s.cc

/-- One iteration of the palette/index loop body (src/pie.h:252-266): on a miss
(`color_index == color_count`) the color is appended at `colors[color_count]`
and the single-byte counter is incremented (wrapping modulo 256, as the
`pie_u8` `color_count` does); `indices[i] = color_index` either way. -/
def scanStep (s : ScanState) (color : Nat) : ScanState :=
  if scanIdx s color = s.cc then
    { colors := fun n => if n = s.cc then color else s.colors n
      cc := (s.cc + 1) % 256
      indices := s.indices ++ [scanIdx s color] }
  else
    { s with indices := s.indices ++ [scanIdx s color] }

/-- The whole palette/index loop (src/pie.h:245-272) over `n` pixels. -/
def scanPixels (px : Nat → Nat) (stride n : Nat) : ScanState :=
  (colorList px stride n).foldl scanStep scanInit

/-- Extension length of the run starting at `x` followed by `xs`
(src/pie.h:280-284): the `while` loop extends while the next index equals
`indices[p]` and `count < 255`, so the extension is capped at 254. -/
def runExt (x : Nat) (xs : List Nat) : Nat :=
  min 254 (xs.takeWhile (fun y => y == x)).length

/-- The RLE loop body, structurally recursive on a fuel bound.  Each iteration
of the C `while` loop (src/pie.h:279-289) advances `p` by `count ≥ 1`, so the
loop runs at most `length` times; `rle` supplies that fuel. -/
def rleFuel : Nat → List Nat → List (Nat × Nat)
  | _, [] => []
  | 0, _ :: _ => []
  | fuel + 1, x :: xs => (x, runExt x xs + 1) :: rleFuel fuel (xs.drop (runExt x xs))

/-- The RLE loop (src/pie.h:276-289) as a function from the index stream to the
emitted `(palette_index, run_length)` pairs, in emission order. -/
def rle (l : List Nat) : List (Nat × Nat) := rleFuel l.length l

/-- Little-endian bytes of a `pie_u16` store. -/
def le16bytes (n : Nat) : List Nat := [n % 256, n / 256 % 256]

/-- Little-endian bytes of a `pie_u32` store. -/
def le32bytes (n : Nat) : List Nat :=
  [n % 256, n / 256 % 256, n / 65536 % 256, n / 16777216 % 256]

/-- The 16 bytes of `*(pie_header *)final = h` (src/pie.h:302), little-endian,
no padding (offsets 0, 3, 4, 8, 10, 12 as documented in the format table). -/
def headerBytes (h : pie_header) : List Nat :=
  h.magic ++ [h.version] ++ le32bytes h.flags ++ le16bytes h.width ++
    le16bytes h.height ++ le32bytes h.length

/-- The embedded palette section (src/pie.h:309-313): the first `count` bytes of
the `pie_u32` colors array reinterpreted as `pie_u8 *`
(`palette_section = (pie_u8 *)colors`), i.e. byte `n` is byte `n % 4` of the
little-endian `pie_u32` at index `n / 4`. -/
def paletteSectionBytes (colors : Nat → Nat) (count : Nat) : List Nat :=
  (List.range count).map (fun n => (colors (n / 4) >>> (8 * (n % 4))) % 256)

/-- The `flags` computation in `pie_encode` (src/pie.h:218-219):
`embed_palette ? PIE_IMAGE_HAS_PALETTE : 0`, then `|= has_alpha & PIE_IMAGE_HAS_ALPHA`. -/
def encodeFlags (has_alpha embed_palette : Nat) : Nat :=
  (if embed_palette ≠ 0 then PIE_IMAGE_HAS_PALETTE else 0) ||| (has_alpha &&& PIE_IMAGE_HAS_ALPHA)

/-- The header value built by `pie_encode` (src/pie.h:220-226); `length` is
filled in later, after the RLE pass. -/
def encodeHeader (width height has_alpha embed_palette : Nat) : pie_header :=
  { magic := [80, 73, 69]
    version := 2
    flags := encodeFlags has_alpha embed_palette
    width := width
    height := height
    length := 0 }

/-- The scan state after `pie_encode`'s palette/index loop. -/
def encodeScan (width height has_alpha embed_palette : Nat) (pixels : Nat → Nat) : ScanState :=
  scanPixels pixels (pie_stride (encodeHeader width height has_alpha embed_palette))
    (width * height)

/-- The `(palette_index, run_length)` pairs emitted by `pie_encode`'s RLE loop
(src/pie.h:276-289): `data_section[q*2+0] = indices[p]`,
`data_section[q*2+1] = (pie_u8)count`. -/
def encodePairs (width height has_alpha embed_palette : Nat) (pixels : Nat → Nat) :
    List (Nat × Nat) :=
  rle (encodeScan width height has_alpha embed_palette pixels).indices

/-- `pie_encode` (src/pie.h:214-316).  The `palette` parameter is declared by
the C function but never read.  `prev_color`/`pair_count` (lines 244, 268-271)
only size an internal scratch allocation and influence no produced byte, so
they are not modelled.  The result is `none` exactly when the
`q > (pie_u32)-1` check (src/pie.h:297-299) fires and the C code returns
`(pie_bytes){0}`; otherwise it is the final byte stream:
header ++ pairs ++ optional embedded palette. -/
def pie_encode (width height has_alpha embed_palette : Nat) (pixels : Nat → Nat)
    (palette : Nat → Nat) : Option (List Nat) :=
  let h := encodeHeader width height has_alpha embed_palette
  let s := encodeScan width height has_alpha embed_palette pixels
  let pairs := encodePairs width height has_alpha embed_palette pixels
  let q := pairs.length
  if q > 4294967295 then none else
    some (headerBytes { h with length := q }
      ++ pairs.flatMap (fun pr => [pr.1, pr.2])
      ++ paletteSectionBytes s.colors
          (if embed_palette ≠ 0 then s.cc * pie_stride h else 0))

/-- The `pie_pixels` struct (src/pie.h:140-145); `data = none` models the null
pointer of `(pie_pixels){0}`.  The allocator field is not modelled. -/
structure pie_pixels where
  count : Nat
  stride : Nat
  data : Option (List Nat)
deriving DecidableEq, Repr

/-- The decoder's read of pair `i` (src/pie.h:181-182):
`palette_index = data[i*2+0]`, `run_length = data[i*2+1]`, where `data` starts
at byte 16 (`(pie_u8 *)(h + 1)`). -/
def pie_read_pair (b : Nat → Nat) (i : Nat) : Nat × Nat :=
  (byte b (16 + i * 2), byte b (16 + i * 2 + 1))

/-- The `h->length` pairs the decoder reads from the stream, in order. -/
def pie_decode_pairs (b : Nat → Nat) (n : Nat) : List (Nat × Nat) :=
  (List.range n).map (pie_read_pair b)

/-- `pie_pixels_from_bytes_and_palette` (src/pie.h:167-194): replays the pairs
against the palette `p`, copying `stride` bytes
`palette_bytes[palette_index*stride + k]` per pixel, `run_length` pixels per
pair, through a single linear cursor.  `data` is the byte sequence the loop
writes, in write order (the C code writes it into an allocation of
`pixel_count*stride` bytes). -/
def pie_pixels_from_bytes_and_palette (b : Nat → Nat) (p : Nat → Nat) : pie_pixels :=
  let h := pie_header_from_bytes b
  let stride := pie_stride h
  let pixel_count := h.width * h.height
  let dest := (pie_decode_pairs b h.length).flatMap
    (fun pr => (List.range pr.2).flatMap
      (fun _ => (List.range stride).map (fun k => byte p (pr.1 * stride + k))))
  { count := pixel_count, stride := stride, data := some dest }

/-- `pie_pixels_from_bytes` (src/pie.h:196-207): returns `(pie_pixels){0}` when
the embedded-palette flag is clear, otherwise decodes with the palette located
at `data + h->length * 2` inside the stream. -/
def pie_pixels_from_bytes (b : Nat → Nat) : pie_pixels :=
  let h := pie_header_from_bytes b
  if pie_has_embedded_palette h = 0 then { count := 0, stride := 0, data := none }
  else pie_pixels_from_bytes_and_palette b (fun n => b (16 + h.length * 2 + n))

/-- Error taxonomy of the spec (§7) for the validating parse and the
capacity-checked decode. -/
inductive pie_error where
  | InvalidMagic
  | UnsupportedVersion
  | InvalidDimensions
  | DestinationTooSmall
deriving DecidableEq, Repr

/-- Modelled from the spec: the validating header parse (§4.1) of the
error-code revision of the library, which is not under `src/` (its caller
`pie_cli/pie.c` uses `pie_decode`/`pie_errors`, absent from `src/pie.h`).
It reinterprets the fixed-size region via `pie_header_from_bytes` and fails
with `InvalidMagic` if the 3-byte constant is not "PIE", `UnsupportedVersion`
if the version byte is not 2, `InvalidDimensions` if width or height is 0. -/
def pie_parse (b : Nat → Nat) : Except pie_error pie_header :=
  let h := pie_header_from_bytes b
  if h.magic ≠ [80, 73, 69] then .error .InvalidMagic
  else if h.version ≠ 2 then .error .UnsupportedVersion
  else if h.width = 0 ∨ h.height = 0 then .error .InvalidDimensions
  else .ok h

/-- Modelled from the spec: the capacity-checked decoder entry (§4.4, §6) of
the error-code revision, not under `src/` (its callers `test.c` and
`pie_cli/pie.c` pass destination buffers/capacities that `src/pie.h`'s
allocator-based decoder does not take).  The required size
`width*height*stride` is computed from the header alone and checked once, up
front; on failure nothing is written and `DestinationTooSmall` is returned,
otherwise the pair-replay of `src/pie.h:180-191` produces the pixels. -/
def pie_decode_into (b : Nat → Nat) (p : Nat → Nat) (destCap : Nat) :
    Except pie_error (List Nat) :=
  let h := pie_header_from_bytes b
  if destCap < h.width * h.height * pie_stride h then .error .DestinationTooSmall
  else .ok ((pie_pixels_from_bytes_and_palette b p).data.getD [])

/-- Specification-level find-or-insert (§4.2 of the spec): a color already
present is left alone, a new color is appended.  Used as the comparison object
for the palette-determinism claim: folding it over the scanned colors yields
the palette in strict first-occurrence order. -/
def specInsert (p : List Nat) (c : Nat) : List Nat :=
  if c ∈ p then p else p ++ [c]

/-- The first-occurrence deduplication of a color sequence: the palette the
spec's find-or-insert builds over a left-to-right scan. -/
def firstOccur (cs : List Nat) : List Nat := cs.foldl specInsert []

/-- The palette as the encoder materializes it: the first `cc` entries of the
`colors` array (what `palette_size = color_count * stride` exposes,
src/pie.h:292). -/
def paletteList (s : ScanState) : List Nat := (List.range s.cc).map s.colors

/-- Pixel buffer with 257 RGB pixels: pixel `i < 256` has color `(i, 0, 0)` —
256 pairwise distinct colors — and pixel 256 repeats pixel 5's color
`(5, 0, 0)`.  Exercises the single-byte `color_count` wraparound. -/
def pxWrap : Nat → Nat :=
  fun i => if i % 3 = 0 then (if i < 768 then i / 3 else 5) else 0

/-! ### Generic lemmas about the RLE loop -/

theorem runExt_le (x : Nat) (xs : List Nat) : runExt x xs ≤ xs.length :=
  le_trans (min_le_right _ _) (List.takeWhile_sublist _).length_le

theorem runExt_le_254 (x : Nat) (xs : List Nat) : runExt x xs ≤ 254 := min_le_left _ _

theorem rleFuel_snd_sum : ∀ (fuel : Nat) (l : List Nat), l.length ≤ fuel →
    ((rleFuel fuel l).map Prod.snd).sum = l.length := by
  intro fuel
  induction fuel with
  | zero =>
    intro l hl
    cases l with
    | nil => simp [rleFuel]
    | cons x xs => simp at hl
  | succ n ih =>
    intro l hl
    cases l with
    | nil => simp [rleFuel]
    | cons x xs =>
      have hk : runExt x xs ≤ xs.length := runExt_le x xs
      have hlen : (xs.drop (runExt x xs)).length ≤ n := by
        simp only [List.length_drop]
        simp only [List.length_cons] at hl
        omega
      have hrec := ih (xs.drop (runExt x xs)) hlen
      simp only [rleFuel, List.map_cons, List.sum_cons, hrec, List.length_drop,
        List.length_cons]
      omega

theorem rle_snd_sum (l : List Nat) : ((rle l).map Prod.snd).sum = l.length :=
  rleFuel_snd_sum l.length l (Nat.le_refl _)

theorem rleFuel_mem_bounds : ∀ (fuel : Nat) (l : List Nat) (pr : Nat × Nat),
    pr ∈ rleFuel fuel l → 1 ≤ pr.2 ∧ pr.2 ≤ 255 := by
  intro fuel
  induction fuel with
  | zero =>
    intro l pr hpr
    cases l with
    | nil => simp [rleFuel] at hpr
    | cons x xs => simp [rleFuel] at hpr
  | succ n ih =>
    intro l pr hpr
    cases l with
    | nil => simp [rleFuel] at hpr
    | cons x xs =>
      simp only [rleFuel, List.mem_cons] at hpr
      rcases hpr with h | h
      · subst h
        have := runExt_le_254 x xs
        simp only
        omega
      · exact ih _ _ h

theorem rle_mem_bounds (l : List Nat) (pr : Nat × Nat) (h : pr ∈ rle l) :
    1 ≤ pr.2 ∧ pr.2 ≤ 255 :=
  rleFuel_mem_bounds l.length l pr h

theorem rleFuel_length_le : ∀ (fuel : Nat) (l : List Nat),
    (rleFuel fuel l).length ≤ l.length := by
  intro fuel
  induction fuel with
  | zero =>
    intro l
    cases l with
    | nil => simp [rleFuel]
    | cons x xs => simp [rleFuel]
  | succ n ih =>
    intro l
    cases l with
    | nil => simp [rleFuel]
    | cons x xs =>
      have := ih (xs.drop (runExt x xs))
      simp only [rleFuel, List.length_cons, List.length_drop] at this ⊢
      omega

theorem rleFuel_replicate : ∀ (fuel n x : Nat), n ≤ fuel →
    (rleFuel fuel (List.replicate n x)).length = (n + 254) / 255 := by
  intro fuel
  induction fuel with
  | zero =>
    intro n x hn
    have : n = 0 := by omega
    subst this
    simp [rleFuel]
  | succ f ih =>
    intro n x hn
    cases n with
    | zero => simp [rleFuel]
    | succ m =>
      rw [List.replicate_succ]
      have hrun : runExt x (List.replicate m x) = min 254 m := by
        unfold runExt
        rw [List.takeWhile_replicate]
        simp
      simp only [rleFuel, List.length_cons, hrun, List.drop_replicate]
      rw [ih (m - min 254 m) x (by omega)]
      omega

theorem rle_replicate (n x : Nat) : (rle (List.replicate n x)).length = (n + 254) / 255 := by
  unfold rle
  rw [List.length_replicate]
  exact rleFuel_replicate n n x (Nat.le_refl _)

/-! ### Generic lemmas about the palette/index scan loop -/

theorem scanStep_indices (s : ScanState) (c : Nat) :
    (scanStep s c).indices = s.indices ++ [scanIdx s c] := by
  unfold scanStep
  split <;> rfl

theorem scanStep_cc_lt (s : ScanState) (c : Nat) (h : s.cc < 256) :
    (scanStep s c).cc < 256 := by
  unfold scanStep
  split
  · exact Nat.mod_lt _ (by omega)
  · exact h

theorem scanIdx_lt (s : ScanState) (c : Nat) (h : s.cc < 256) : scanIdx s c < 256 := by
  unfold scanIdx
  cases hf : (List.range s.cc).find? (fun j => s.colors j == c) with
  | none => simpa using h
  | some j =>
    have hj := List.mem_of_find?_eq_some hf
    rw [List.mem_range] at hj
    simpa using lt_trans hj h

theorem scan_foldl_indices_length : ∀ (cs : List Nat) (s : ScanState),
    ((cs.foldl scanStep s).indices).length = s.indices.length + cs.length := by
  intro cs
  induction cs with
  | nil => intro s; simp
  | cons c cs ih =>
    intro s
    rw [List.foldl_cons, ih, scanStep_indices]
    simp
    omega

theorem scanPixels_indices_length (px : Nat → Nat) (stride n : Nat) :
    (scanPixels px stride n).indices.length = n := by
  unfold scanPixels
  rw [scan_foldl_indices_length]
  simp [colorList, scanInit]

theorem scanStep_of_found (s : ScanState) (c j0 : Nat)
    (hf : (List.range s.cc).find? (fun j => s.colors j == c) = some j0) :
    scanStep s c = { s with indices := s.indices ++ [j0] } := by
  have hj : j0 < s.cc := by
    have := List.mem_of_find?_eq_some hf
    rwa [List.mem_range] at this
  have hidx : scanIdx s c = j0 := by
    unfold scanIdx
    rw [hf]
    rfl
  unfold scanStep
  rw [hidx, if_neg (by omega)]

theorem scan_foldl_replicate_found (m : Nat) (s : ScanState) (c j0 : Nat)
    (hf : (List.range s.cc).find? (fun j => s.colors j == c) = some j0) :
    (List.replicate m c).foldl scanStep s =
      { s with indices := s.indices ++ List.replicate m j0 } := by
  induction m generalizing s with
  | zero => simp
  | succ m ih =>
    rw [List.replicate_succ, List.foldl_cons, scanStep_of_found s c j0 hf]
    rw [ih { s with indices := s.indices ++ [j0] } hf]
    simp [List.replicate_succ]

theorem scan_replicate_indices (n c : Nat) :
    ((List.replicate n c).foldl scanStep scanInit).indices = List.replicate n 0 := by
  cases n with
  | zero => simp [scanInit]
  | succ m =>
    rw [List.replicate_succ, List.foldl_cons]
    have h1 : scanStep scanInit c =
        { colors := fun n => if n = 0 then c else 0, cc := 1, indices := [0] } := by
      have : scanIdx scanInit c = 0 := by simp [scanIdx, scanInit]
      unfold scanStep
      rw [this]
      simp [scanInit]
    rw [h1]
    have hf : (List.range (1 : Nat)).find? (fun j =>
        (fun n => if n = 0 then c else 0) j == c) = some 0 := by
      simp [List.range_succ]
    have := scan_foldl_replicate_found m
      { colors := fun n => if n = 0 then c else 0, cc := 1, indices := [0] } c 0 hf
    rw [this]
    simp [List.replicate_succ]

/-! ### Claim theorems: C4, C5, C7, C10 -/

/-- C4: for every pixel buffer handed to the encoder, the `run_length` fields of
the emitted pairs sum to exactly `width * height`: the RLE loop consumes the
`width*height`-entry index stream with no gaps or overlaps. -/
theorem c4_run_length_sum (width height has_alpha embed_palette : Nat)
    (pixels : Nat → Nat) :
    ((encodePairs width height has_alpha embed_palette pixels).map Prod.snd).sum
      = width * height := by
  unfold encodePairs
  rw [rle_snd_sum]
  unfold encodeScan
  exact scanPixels_indices_length _ _ _

/-- C5: every pair emitted by the encoder has `run_length ∈ [1, 255]`, and a
uniform-color image (all `width*height` pixels pack to the same color, however
rows are laid out) produces exactly `⌈width*height/255⌉` pairs: runs are split
only by the 255 ceiling, never by row boundaries. -/
theorem c5_run_bounds_and_uniform (width height has_alpha embed_palette : Nat)
    (pixels : Nat → Nat) :
    (∀ pr ∈ encodePairs width height has_alpha embed_palette pixels,
        1 ≤ pr.2 ∧ pr.2 ≤ 255) ∧
    ((∀ i < width * height,
        packColor pixels (pie_stride (encodeHeader width height has_alpha embed_palette)) i
          = packColor pixels (pie_stride (encodeHeader width height has_alpha embed_palette)) 0) →
      (encodePairs width height has_alpha embed_palette pixels).length
        = (width * height + 254) / 255) := by
  constructor
  · intro pr hpr
    exact rle_mem_bounds _ pr hpr
  · intro huni
    unfold encodePairs encodeScan scanPixels
    have hcl : colorList pixels
        (pie_stride (encodeHeader width height has_alpha embed_palette)) (width * height)
        = List.replicate (width * height)
            (packColor pixels (pie_stride (encodeHeader width height has_alpha embed_palette)) 0) := by
      rw [List.eq_replicate_iff]
      constructor
      · simp [colorList]
      · intro b hb
        simp only [colorList, List.mem_map, List.mem_range] at hb
        obtain ⟨i, hi, rfl⟩ := hb
        exact huni i hi
    rw [hcl, scan_replicate_indices, rle_replicate]

/-- Witness for C5 at a concrete input: the uniform 2×2 RGB image of color
`(7,7,7)` yields the single pair `(0, 4)`, whose run length is in `[1, 255]`,
and the pair count equals `⌈4/255⌉ = 1`. -/
theorem c5_witness :
    (1 ≤ ((0, 4) : Nat × Nat).2 ∧ ((0, 4) : Nat × Nat).2 ≤ 255) ∧
    (encodePairs 2 2 0 0 (fun _ => 7)).length = (2 * 2 + 254) / 255 :=
  ⟨(c5_run_bounds_and_uniform 2 2 0 0 (fun _ => 7)).1 (0, 4) (by decide),
   (c5_run_bounds_and_uniform 2 2 0 0 (fun _ => 7)).2 (by decide)⟩

/-- C7 (supporting theorem for the code bug): for every `pie_u16`-ranged
width/height, `pie_encode` returns a byte stream — it has no failure path for
color overflow.  In particular a pixel buffer with 257 distinct colors (or any
number) is encoded "successfully": the single-byte `color_count` wraps modulo
256 and the output is silently corrupted instead of failing with
`TooManyColors`.  The only guarded condition, `q > (pie_u32)-1`
(src/pie.h:297-299), can never fire since the pair count is at most
`width*height ≤ 65535²`. -/
theorem c7_encode_never_fails (width height has_alpha embed_palette : Nat)
    (pixels palette : Nat → Nat) (hw : width < 65536) (hh : height < 65536) :
    ∃ s, pie_encode width height has_alpha embed_palette pixels palette = some s := by
  have hq : (encodePairs width height has_alpha embed_palette pixels).length
      ≤ width * height := by
    unfold encodePairs rle
    calc ((rleFuel (encodeScan width height has_alpha embed_palette pixels).indices.length
            (encodeScan width height has_alpha embed_palette pixels).indices)).length
        ≤ (encodeScan width height has_alpha embed_palette pixels).indices.length :=
          rleFuel_length_le _ _
      _ = width * height := scanPixels_indices_length _ _ _
  have hle : ¬ ((encodePairs width height has_alpha embed_palette pixels).length
      > 4294967295) := by
    have hwh : width * height ≤ 65535 * 65535 :=
      Nat.mul_le_mul (by omega) (by omega)
    omega
  simp only [pie_encode]
  rw [if_neg hle]
  exact ⟨_, rfl⟩

/-- Witness for C7 at a concrete input: a 1×1 image encodes to `some` stream. -/
theorem c7_witness :
    ∃ s, pie_encode 1 1 0 0 (fun _ => 0) (fun _ => 0) = some s :=
  c7_encode_never_fails 1 1 0 0 (fun _ => 0) (fun _ => 0) (by decide) (by decide)

/-- C10: when the parsed header's embedded-palette flag is clear,
`pie_pixels_from_bytes` returns the zero `pie_pixels` (`count = 0`,
`stride = 0`, null `data`), decoding nothing. -/
theorem c10_no_embedded_palette (b : Nat → Nat)
    (h : pie_has_embedded_palette (pie_header_from_bytes b) = 0) :
    pie_pixels_from_bytes b = { count := 0, stride := 0, data := none } := by
  simp only [pie_pixels_from_bytes]
  rw [if_pos h]

/-- Witness for C10 at a concrete input: the all-zero stream has flags 0, so
decoding without an external palette yields the zero result. -/
theorem c10_witness :
    pie_pixels_from_bytes (fun _ => 0) = { count := 0, stride := 0, data := none } :=
  c10_no_embedded_palette (fun _ => 0) (by decide)

/-! ### The shape of an encoded stream and header serialization round-trip -/

theorem encodeFlags_le_three (ha ep : Nat) : encodeFlags ha ep ≤ 3 := by
  unfold encodeFlags PIE_IMAGE_HAS_PALETTE PIE_IMAGE_HAS_ALPHA
  have h1 : ha &&& 1 ≤ 1 := Nat.and_le_right
  have h2 : ha &&& 1 = 0 ∨ ha &&& 1 = 1 := by omega
  split <;> rcases h2 with h2 | h2 <;> rw [h2] <;> decide

theorem encode_stream_shape (w h ha ep : Nat) (px pal : Nat → Nat) (s : List Nat)
    (henc : pie_encode w h ha ep px pal = some s) :
    s = headerBytes { magic := [80, 73, 69], version := 2, flags := encodeFlags ha ep,
                      width := w, height := h,
                      length := (encodePairs w h ha ep px).length }
        ++ (encodePairs w h ha ep px).flatMap (fun pr => [pr.1, pr.2])
        ++ paletteSectionBytes (encodeScan w h ha ep px).colors
            (if ep ≠ 0 then (encodeScan w h ha ep px).cc
              * pie_stride (encodeHeader w h ha ep) else 0)
      ∧ (encodePairs w h ha ep px).length < 4294967296 := by
  simp only [pie_encode] at henc
  by_cases hq : (encodePairs w h ha ep px).length > 4294967295
  · rw [if_pos hq] at henc
    exact absurd henc (by simp)
  · rw [if_neg hq] at henc
    injection henc with hs
    refine ⟨?_, by omega⟩
    rw [← hs]
    rfl

theorem header_roundtrip (f w h q : Nat) (F P : List Nat)
    (hf : f < 4294967296) (hq : q < 4294967296) :
    pie_header_from_bytes (fun i =>
      (headerBytes { magic := [80, 73, 69], version := 2, flags := f, width := w,
                     height := h, length := q } ++ F ++ P).getD i 0)
      = { magic := [80, 73, 69], version := 2, flags := f, width := w % 65536,
          height := h % 65536, length := q } := by
  have base : pie_header_from_bytes (fun i =>
      (headerBytes { magic := [80, 73, 69], version := 2, flags := f, width := w,
                     height := h, length := q } ++ F ++ P).getD i 0)
      = { magic := [80 % 256, 73 % 256, 69 % 256]
          version := 2 % 256
          flags := f % 256 % 256 + f / 256 % 256 % 256 * 256 + f / 65536 % 256 % 256 * 65536
                     + f / 16777216 % 256 % 256 * 16777216
          width := w % 256 % 256 + w / 256 % 256 % 256 * 256
          height := h % 256 % 256 + h / 256 % 256 % 256 * 256
          length := q % 256 % 256 + q / 256 % 256 % 256 * 256 + q / 65536 % 256 % 256 * 65536
                      + q / 16777216 % 256 % 256 * 16777216 } := rfl
  rw [base]
  congr 1 <;> first | decide | omega

theorem encode_parsed_header (w h ha ep : Nat) (px pal : Nat → Nat) (s : List Nat)
    (henc : pie_encode w h ha ep px pal = some s) :
    pie_header_from_bytes (fun i => s.getD i 0)
      = { magic := [80, 73, 69], version := 2, flags := encodeFlags ha ep,
          width := w % 65536, height := h % 65536,
          length := (encodePairs w h ha ep px).length } := by
  obtain ⟨hs, hq⟩ := encode_stream_shape w h ha ep px pal s henc
  subst hs
  exact header_roundtrip (encodeFlags ha ep) w h (encodePairs w h ha ep px).length _ _
    (by have := encodeFlags_le_three ha ep; omega) hq

/-! ### Claim theorems: C1, C2, C3 -/

/-- C1 (code bug evidence): round-trip fails for RGB with embedded palette.
Encoding the 2×1 RGB image `[(1,2,3), (4,5,6)]` with `embed_palette` set and
decoding it back via the embedded palette yields `[1,2,3,0,4,5]`, not the
original bytes: the encoder embeds the palette as the raw little-endian
`pie_u32` color array truncated to `color_count*3` bytes (src/pie.h:309-313),
so for stride 3 every entry after the first is shifted by the `u32` padding
byte, while the decoder (and the format doc, src/pie.h:33-34) reads tightly
packed 3-byte entries.  The third conjunct shows the same stream decodes
correctly when the discovered palette is supplied externally, isolating the
embedded-palette write as the broken side. -/
theorem c1_roundtrip_embedded_rgb_fails :
    (pie_pixels_from_bytes (fun i =>
        ((pie_encode 2 1 0 1 (fun i => [1, 2, 3, 4, 5, 6].getD i 0)
          (fun _ => 0)).getD []).getD i 0)).data = some [1, 2, 3, 0, 4, 5] ∧
    some [1, 2, 3, 0, 4, 5] ≠ some [1, 2, 3, 4, 5, 6] ∧
    (pie_pixels_from_bytes_and_palette (fun i =>
        ((pie_encode 2 1 0 1 (fun i => [1, 2, 3, 4, 5, 6].getD i 0)
          (fun _ => 0)).getD []).getD i 0)
      (fun i => [1, 2, 3, 4, 5, 6].getD i 0)).data = some [1, 2, 3, 4, 5, 6] := by
  decide

/-- C2 (counterexample): the pairs are not stored run-length-first.  Encoding
the uniform 2×1 image of color `(7,7,7)` emits the single pair with
`palette_index = 0` and `run_length = 2`; in the stream, byte 16 is 0 (the
index) and byte 17 is 2 (the run length) — were the run length stored first,
byte 16 would be 2 and byte 17 would be 0. -/
theorem c2_counterexample :
    encodePairs 2 1 0 0 (fun _ => 7) = [(0, 2)] ∧
    ((pie_encode 2 1 0 0 (fun _ => 7) (fun _ => 0)).getD []).getD 16 0 = 0 ∧
    ((pie_encode 2 1 0 0 (fun _ => 7) (fun _ => 0)).getD []).getD 17 0 = 2 ∧
    ¬ (((pie_encode 2 1 0 0 (fun _ => 7) (fun _ => 0)).getD []).getD 16 0 = 2 ∧
       ((pie_encode 2 1 0 0 (fun _ => 7) (fun _ => 0)).getD []).getD 17 0 = 0) := by
  decide

/-- C3 (counterexample): the flag bits are the other way around.  A header with
`flags = 1` (bit 0 set) has no embedded palette (`pie_has_embedded_palette = 0`)
and stride 4, and a header with `flags = 2` (bit 1 set) has an embedded palette
and stride 3 — contradicting the claim that bit 0 marks the embedded palette
and bit 1 marks alpha.  (`PIE_IMAGE_HAS_ALPHA = 1`, `PIE_IMAGE_HAS_PALETTE = 2`,
src/pie.h:122-123; `test.c` asserts exactly this behavior for `flags = 2`.) -/
theorem c3_counterexample :
    pie_has_embedded_palette { magic := [80, 73, 69], version := 2, flags := 1,
                               width := 1, height := 1, length := 1 } = 0 ∧
    pie_stride { magic := [80, 73, 69], version := 2, flags := 1,
                 width := 1, height := 1, length := 1 } = 4 ∧
    pie_stride { magic := [80, 73, 69], version := 2, flags := 2,
                 width := 1, height := 1, length := 1 } = 3 ∧
    pie_has_embedded_palette { magic := [80, 73, 69], version := 2, flags := 2,
                               width := 1, height := 1, length := 1 } ≠ 0 := by
  decide

/-- C3 (amended): in the 4-byte flags field, bit 0 (`PIE_IMAGE_HAS_ALPHA = 1`)
set means the image has an alpha channel and bit 1
(`PIE_IMAGE_HAS_PALETTE = 2`) set means a palette is embedded; the stride is
`3 + (flags & PIE_IMAGE_HAS_ALPHA)` and is always 3 or 4.  For every stream the
encoder produces, the parsed header reflects the `has_alpha`/`embed_palette`
arguments through exactly those bits. -/
theorem c3_flags_amended (w h ha ep : Nat) (px pal : Nat → Nat) (s : List Nat)
    (henc : pie_encode w h ha ep px pal = some s) :
    (∀ hd : pie_header, pie_stride hd = 3 ∨ pie_stride hd = 4) ∧
    pie_stride (pie_header_from_bytes (fun i => s.getD i 0)) = 3 + (ha &&& 1) ∧
    (pie_has_embedded_palette (pie_header_from_bytes (fun i => s.getD i 0)) ≠ 0 ↔ ep ≠ 0) := by
  have h1 : ha &&& 1 ≤ 1 := Nat.and_le_right
  have h2 : ha &&& 1 = 0 ∨ ha &&& 1 = 1 := by omega
  refine ⟨?_, ?_, ?_⟩
  · intro hd
    unfold pie_stride PIE_IMAGE_HAS_ALPHA
    have : hd.flags &&& 1 ≤ 1 := Nat.and_le_right
    omega
  · rw [encode_parsed_header w h ha ep px pal s henc]
    show 3 + (encodeFlags ha ep &&& PIE_IMAGE_HAS_ALPHA) = 3 + (ha &&& 1)
    unfold encodeFlags PIE_IMAGE_HAS_ALPHA PIE_IMAGE_HAS_PALETTE
    split <;> rcases h2 with h2 | h2 <;> rw [h2] <;> decide
  · rw [encode_parsed_header w h ha ep px pal s henc]
    show (encodeFlags ha ep &&& PIE_IMAGE_HAS_PALETTE) ≠ 0 ↔ ep ≠ 0
    unfold encodeFlags PIE_IMAGE_HAS_PALETTE PIE_IMAGE_HAS_ALPHA
    by_cases hep : ep ≠ 0
    · rw [if_pos hep]
      have hv : (2 ||| (ha &&& 1)) &&& 2 = 2 := by
        rcases h2 with h2 | h2 <;> rw [h2] <;> decide
      rw [hv]
      simp [hep]
    · rw [if_neg hep]
      have hv : (0 ||| (ha &&& 1)) &&& 2 = 0 := by
        rcases h2 with h2 | h2 <;> rw [h2] <;> decide
      rw [hv]
      simp [hep]

/-- Witness for C3 (amended) at a concrete input: the 1×1 RGB image of color
`(9,9,9)` encoded with an embedded palette parses back with stride 3 and a set
embedded-palette bit. -/
theorem c3_witness :
    (∀ hd : pie_header, pie_stride hd = 3 ∨ pie_stride hd = 4) ∧
    pie_stride (pie_header_from_bytes (fun i =>
      ([80, 73, 69, 2, 2, 0, 0, 0, 1, 0, 1, 0, 1, 0, 0, 0, 0, 1, 9, 9, 9] : List Nat).getD i 0))
      = 3 + (0 &&& 1) ∧
    (pie_has_embedded_palette (pie_header_from_bytes (fun i =>
      ([80, 73, 69, 2, 2, 0, 0, 0, 1, 0, 1, 0, 1, 0, 0, 0, 0, 1, 9, 9, 9] : List Nat).getD i 0))
      ≠ 0 ↔ (1 : Nat) ≠ 0) :=
  c3_flags_amended 1 1 0 1 (fun _ => 9) (fun _ => 0)
    [80, 73, 69, 2, 2, 0, 0, 0, 1, 0, 1, 0, 1, 0, 0, 0, 0, 1, 9, 9, 9] (by decide)

/-! ### Pair-section indexing lemmas -/

theorem pairs_flat_length (ps : List (Nat × Nat)) :
    (ps.flatMap fun pr => [pr.1, pr.2]).length = 2 * ps.length := by
  induction ps with
  | nil => simp
  | cons p t ih =>
    simp only [List.flatMap_cons, List.length_append, ih, List.length_cons]
    simp
    omega

theorem pairs_flat_getD_fst : ∀ (ps : List (Nat × Nat)) (i : Nat),
    (ps.flatMap fun pr => [pr.1, pr.2]).getD (2 * i) 0 = (ps.getD i (0, 0)).1 := by
  intro ps
  induction ps with
  | nil => intro i; simp
  | cons p t ih =>
    intro i
    cases i with
    | zero => simp [List.flatMap_cons]
    | succ j =>
      have h2 : 2 * (j + 1) = 2 * j + 1 + 1 := by ring
      simp only [List.flatMap_cons, List.cons_append, List.nil_append, h2,
        List.getD_cons_succ]
      exact ih j

theorem pairs_flat_getD_snd : ∀ (ps : List (Nat × Nat)) (i : Nat),
    (ps.flatMap fun pr => [pr.1, pr.2]).getD (2 * i + 1) 0 = (ps.getD i (0, 0)).2 := by
  intro ps
  induction ps with
  | nil => intro i; simp
  | cons p t ih =>
    intro i
    cases i with
    | zero => simp [List.flatMap_cons]
    | succ j =>
      have h2 : 2 * (j + 1) + 1 = 2 * j + 1 + 1 + 1 := by ring
      simp only [List.flatMap_cons, List.cons_append, List.nil_append, h2,
        List.getD_cons_succ]
      exact ih j

theorem getD_append_of_lt (l t : List Nat) (n : Nat) (hn : n < l.length) :
    (l ++ t).getD n 0 = l.getD n 0 := by
  simp [List.getD_eq_getElem?_getD, List.getElem?_append_left hn]

theorem getD_append_of_ge (l t : List Nat) (n : Nat) (hn : l.length ≤ n) :
    (l ++ t).getD n 0 = t.getD (n - l.length) 0 := by
  simp [List.getD_eq_getElem?_getD, List.getElem?_append_right hn]

/-! ### Bounds on the emitted pair components -/

theorem rleFuel_fst_mem : ∀ (fuel : Nat) (l : List Nat) (pr : Nat × Nat),
    pr ∈ rleFuel fuel l → pr.1 ∈ l := by
  intro fuel
  induction fuel with
  | zero =>
    intro l pr hpr
    cases l <;> simp [rleFuel] at hpr
  | succ n ih =>
    intro l pr hpr
    cases l with
    | nil => simp [rleFuel] at hpr
    | cons x xs =>
      simp only [rleFuel, List.mem_cons] at hpr
      rcases hpr with h | h
      · subst h
        exact List.mem_cons_self _ _
      · exact List.mem_cons_of_mem _ (List.mem_of_mem_drop (ih _ _ h))

theorem scan_indices_lt : ∀ (cs : List Nat) (s : ScanState), s.cc < 256 →
    (∀ v ∈ s.indices, v < 256) → ∀ v ∈ (cs.foldl scanStep s).indices, v < 256 := by
  intro cs
  induction cs with
  | nil =>
    intro s hcc hind v hv
    exact hind v hv
  | cons c cs ih =>
    intro s hcc hind
    rw [List.foldl_cons]
    apply ih _ (scanStep_cc_lt s c hcc)
    intro v hv
    rw [scanStep_indices] at hv
    rcases List.mem_append.mp hv with hmem | hmem
    · exact hind v hmem
    · rw [List.mem_singleton] at hmem
      subst hmem
      exact scanIdx_lt s c hcc

theorem encodePairs_fst_lt (w h ha ep : Nat) (px : Nat → Nat) (pr : Nat × Nat)
    (hpr : pr ∈ encodePairs w h ha ep px) : pr.1 < 256 := by
  have hmem : pr.1 ∈ (encodeScan w h ha ep px).indices :=
    rleFuel_fst_mem _ _ _ hpr
  unfold encodeScan scanPixels at hmem
  exact scan_indices_lt _ scanInit (by decide) (by intro v hv; simp [scanInit] at hv)
    pr.1 hmem

theorem stream_pair_reads (hd : pie_header) (ps : List (Nat × Nat)) (P : List Nat)
    (hm : hd.magic = [80, 73, 69]) (i : Nat) (hi : i < ps.length) :
    pie_read_pair
      (fun n => ((headerBytes hd ++ ps.flatMap (fun pr => [pr.1, pr.2]) ++ P)).getD n 0) i
      = ((ps.getD i (0, 0)).1 % 256, (ps.getD i (0, 0)).2 % 256) := by
  have hL : (headerBytes hd).length = 16 := by
    simp [headerBytes, hm, le32bytes, le16bytes]
  have hF : (ps.flatMap fun pr => [pr.1, pr.2]).length = 2 * ps.length :=
    pairs_flat_length ps
  have r1 : ((headerBytes hd ++ ps.flatMap (fun pr => [pr.1, pr.2])) ++ P).getD
      (16 + i * 2) 0 = (ps.getD i (0, 0)).1 := by
    rw [getD_append_of_lt _ _ _ (by rw [List.length_append, hL, hF]; omega)]
    rw [getD_append_of_ge _ _ _ (by rw [hL]; omega)]
    rw [hL]
    have harith : 16 + i * 2 - 16 = 2 * i := by omega
    rw [harith, pairs_flat_getD_fst]
  have r2 : ((headerBytes hd ++ ps.flatMap (fun pr => [pr.1, pr.2])) ++ P).getD
      (16 + i * 2 + 1) 0 = (ps.getD i (0, 0)).2 := by
    rw [getD_append_of_lt _ _ _ (by rw [List.length_append, hL, hF]; omega)]
    rw [getD_append_of_ge _ _ _ (by rw [hL]; omega)]
    rw [hL]
    have harith : 16 + i * 2 + 1 - 16 = 2 * i + 1 := by omega
    rw [harith, pairs_flat_getD_snd]
  unfold pie_read_pair byte
  simp only []
  rw [r1, r2]

/-- C2 (amended): each RLE pair is laid out with the palette-index byte first
and the run-length byte second, and encoder and decoder agree on this order:
for every stream the encoder produces, reading back `h->length` pairs the way
the decoder does (`palette_index = data[i*2+0]`, `run_length = data[i*2+1]`,
src/pie.h:181-182) recovers exactly the `(palette_index, run_length)` pairs the
RLE loop emitted (`data_section[q*2+0] = indices[p]`,
`data_section[q*2+1] = count`, src/pie.h:285-286). -/
theorem c2_pair_layout_consistent (w h ha ep : Nat) (px pal : Nat → Nat) (s : List Nat)
    (henc : pie_encode w h ha ep px pal = some s) :
    pie_decode_pairs (fun i => s.getD i 0)
        (pie_header_from_bytes (fun i => s.getD i 0)).length
      = encodePairs w h ha ep px := by
  have hlen : (pie_header_from_bytes (fun i => s.getD i 0)).length
      = (encodePairs w h ha ep px).length := by
    rw [encode_parsed_header w h ha ep px pal s henc]
  rw [hlen]
  obtain ⟨hs, hq⟩ := encode_stream_shape w h ha ep px pal s henc
  subst hs
  apply List.ext_getElem
  · simp [pie_decode_pairs]
  · intro i h1 h2
    have hi : i < (encodePairs w h ha ep px).length := by
      simpa [pie_decode_pairs] using h1
    simp only [pie_decode_pairs, List.getElem_map, List.getElem_range]
    rw [stream_pair_reads _ _ _ rfl i hi]
    have hgd : (encodePairs w h ha ep px).getD i (0, 0) = (encodePairs w h ha ep px)[i] := by
      rw [List.getD_eq_getElem?_getD, List.getElem?_eq_getElem hi]
      rfl
    rw [hgd]
    have hmem : (encodePairs w h ha ep px)[i] ∈ encodePairs w h ha ep px :=
      List.getElem_mem hi
    have hb1 : ((encodePairs w h ha ep px)[i]).1 < 256 :=
      encodePairs_fst_lt w h ha ep px _ hmem
    have hb2 : 1 ≤ ((encodePairs w h ha ep px)[i]).2 ∧
        ((encodePairs w h ha ep px)[i]).2 ≤ 255 :=
      rle_mem_bounds ((encodeScan w h ha ep px).indices) _ hmem
    exact Prod.ext (Nat.mod_eq_of_lt hb1) (Nat.mod_eq_of_lt (by omega))

/-- Witness for C2 (amended) at a concrete input: the encoded 1×1 black image's
single pair reads back as `(palette_index 0, run_length 1)`. -/
theorem c2_pair_layout_witness :
    pie_decode_pairs (fun i =>
        ([80, 73, 69, 2, 0, 0, 0, 0, 1, 0, 1, 0, 1, 0, 0, 0, 0, 1] : List Nat).getD i 0)
      (pie_header_from_bytes (fun i =>
        ([80, 73, 69, 2, 0, 0, 0, 0, 1, 0, 1, 0, 1, 0, 0, 0, 0, 1] : List Nat).getD i 0)).length
      = encodePairs 1 1 0 0 (fun _ => 0) :=
  c2_pair_layout_consistent 1 1 0 0 (fun _ => 0) (fun _ => 0)
    [80, 73, 69, 2, 0, 0, 0, 0, 1, 0, 1, 0, 1, 0, 0, 0, 0, 1] (by decide)

/-! ### Claim theorems: C8, C9 (spec-modelled validating parse and decode) -/

theorem header_from_bytes_congr (b b' : Nat → Nat) (hagree : ∀ i, i < 16 → b' i = b i) :
    pie_header_from_bytes b' = pie_header_from_bytes b := by
  unfold pie_header_from_bytes le32 le16 byte
  rw [hagree 0 (by omega), hagree 1 (by omega), hagree 2 (by omega), hagree 3 (by omega),
    hagree 4 (by omega), hagree 5 (by omega), hagree 6 (by omega), hagree 7 (by omega),
    hagree 8 (by omega), hagree 9 (by omega), hagree 10 (by omega), hagree 11 (by omega),
    hagree 12 (by omega), hagree 13 (by omega), hagree 14 (by omega), hagree 15 (by omega)]

/-- C8: the validating parse reinterprets the first 16 bytes as the header and
fails with `InvalidMagic` when the 3 magic bytes are not "PIE", with
`UnsupportedVersion` when the version byte is not 2, with `InvalidDimensions`
when the parsed width or height is zero, and succeeds returning the header
otherwise, in that priority order. -/
theorem c8_parse_errors (b : Nat → Nat) :
    ((pie_header_from_bytes b).magic ≠ [80, 73, 69] →
      pie_parse b = Except.error pie_error.InvalidMagic) ∧
    ((pie_header_from_bytes b).magic = [80, 73, 69] →
      (pie_header_from_bytes b).version ≠ 2 →
      pie_parse b = Except.error pie_error.UnsupportedVersion) ∧
    ((pie_header_from_bytes b).magic = [80, 73, 69] →
      (pie_header_from_bytes b).version = 2 →
      ((pie_header_from_bytes b).width = 0 ∨ (pie_header_from_bytes b).height = 0) →
      pie_parse b = Except.error pie_error.InvalidDimensions) ∧
    ((pie_header_from_bytes b).magic = [80, 73, 69] →
      (pie_header_from_bytes b).version = 2 →
      (pie_header_from_bytes b).width ≠ 0 →
      (pie_header_from_bytes b).height ≠ 0 →
      pie_parse b = Except.ok (pie_header_from_bytes b)) := by
  simp only [pie_parse]
  refine ⟨?_, ?_, ?_, ?_⟩
  · intro hm
    rw [if_pos hm]
  · intro hm hv
    rw [if_neg (by simp [hm]), if_pos hv]
  · intro hm hv hwh
    rw [if_neg (by simp [hm]), if_neg (by simp [hv]), if_pos hwh]
  · intro hm hv hw hh
    rw [if_neg (by simp [hm]), if_neg (by simp [hv]), if_neg (by simp [hw, hh])]

/-- Witness for C8 at concrete inputs: one stream per outcome.  All-zero bytes
fail the magic check; "PIE" with version 1 fails the version check; "PIE"
version 2 with zero width fails the dimension check; a 1×1 "PIE" version 2
header parses successfully. -/
theorem c8_witness :
    pie_parse (fun _ => 0) = Except.error pie_error.InvalidMagic ∧
    pie_parse (fun i => ([80, 73, 69, 1] : List Nat).getD i 0)
      = Except.error pie_error.UnsupportedVersion ∧
    pie_parse (fun i => ([80, 73, 69, 2] : List Nat).getD i 0)
      = Except.error pie_error.InvalidDimensions ∧
    pie_parse (fun i => ([80, 73, 69, 2, 0, 0, 0, 0, 1, 0, 1, 0, 1, 0, 0, 0] : List Nat).getD i 0)
      = Except.ok (pie_header_from_bytes
          (fun i => ([80, 73, 69, 2, 0, 0, 0, 0, 1, 0, 1, 0, 1, 0, 0, 0] : List Nat).getD i 0)) :=
  ⟨(c8_parse_errors _).1 (by decide),
   (c8_parse_errors _).2.1 (by decide) (by decide),
   (c8_parse_errors _).2.2.1 (by decide) (by decide) (by decide),
   (c8_parse_errors _).2.2.2 (by decide) (by decide) (by decide) (by decide)⟩

theorem decode_into_error_iff (b p : Nat → Nat) (destCap : Nat) :
    pie_decode_into b p destCap = Except.error pie_error.DestinationTooSmall ↔
      destCap < (pie_header_from_bytes b).width * (pie_header_from_bytes b).height
        * pie_stride (pie_header_from_bytes b) := by
  simp only [pie_decode_into]
  by_cases hc : destCap < (pie_header_from_bytes b).width * (pie_header_from_bytes b).height
      * pie_stride (pie_header_from_bytes b)
  · rw [if_pos hc]
    simp [hc]
  · rw [if_neg hc]
    simp [hc]

/-- C9: the capacity-checked decoder computes the required destination size
`width * height * stride` from the header alone and checks it once, up front:
when the capacity is short it fails with `DestinationTooSmall` having produced
nothing, otherwise it decodes; and the outcome of the check depends only on the
first 16 bytes (the header) of the stream. -/
theorem c9_dest_capacity_check (b p : Nat → Nat) (destCap : Nat) :
    (destCap < (pie_header_from_bytes b).width * (pie_header_from_bytes b).height
        * pie_stride (pie_header_from_bytes b) →
      pie_decode_into b p destCap = Except.error pie_error.DestinationTooSmall) ∧
    ((pie_header_from_bytes b).width * (pie_header_from_bytes b).height
        * pie_stride (pie_header_from_bytes b) ≤ destCap →
      pie_decode_into b p destCap
        = Except.ok ((pie_pixels_from_bytes_and_palette b p).data.getD [])) ∧
    (∀ b' : Nat → Nat, (∀ i, i < 16 → b' i = b i) →
      (pie_decode_into b' p destCap = Except.error pie_error.DestinationTooSmall ↔
       pie_decode_into b p destCap = Except.error pie_error.DestinationTooSmall)) := by
  refine ⟨?_, ?_, ?_⟩
  · intro hc
    simp only [pie_decode_into]
    rw [if_pos hc]
  · intro hc
    simp only [pie_decode_into]
    rw [if_neg (by omega)]
  · intro b' hagree
    rw [decode_into_error_iff, decode_into_error_iff,
      header_from_bytes_congr b b' hagree]

/-- Witness for C9 at a concrete input: a 1×1 RGB header needs 3 destination
bytes; capacity 2 fails with `DestinationTooSmall`, capacity 3 decodes. -/
theorem c9_witness :
    pie_decode_into
        (fun i => ([80, 73, 69, 2, 0, 0, 0, 0, 1, 0, 1, 0, 1, 0, 0, 0, 0, 1] : List Nat).getD i 0)
        (fun _ => 5) 2 = Except.error pie_error.DestinationTooSmall ∧
    pie_decode_into
        (fun i => ([80, 73, 69, 2, 0, 0, 0, 0, 1, 0, 1, 0, 1, 0, 0, 0, 0, 1] : List Nat).getD i 0)
        (fun _ => 5) 3
      = Except.ok ((pie_pixels_from_bytes_and_palette
          (fun i => ([80, 73, 69, 2, 0, 0, 0, 0, 1, 0, 1, 0, 1, 0, 0, 0, 0, 1] : List Nat).getD i 0)
          (fun _ => 5)).data.getD []) :=
  ⟨(c9_dest_capacity_check _ _ 2).1 (by decide),
   (c9_dest_capacity_check _ _ 3).2.1 (by decide)⟩

/-! ### Palette find-or-insert abstraction (for C6) -/

theorem find_range_eq : ∀ (p : List Nat) (colors : Nat → Nat) (c : Nat),
    (∀ j, j < p.length → colors j = p.getD j 0) →
    (List.range p.length).find? (fun j => colors j == c)
      = if c ∈ p then some (p.indexOf c) else none := by
  intro p
  induction p with
  | nil =>
    intro colors c hcol
    simp
  | cons a t ih =>
    intro colors c hcol
    have h0 : colors 0 = a := by
      have := hcol 0 (by simp)
      simpa using this
    rw [List.length_cons, List.range_succ_eq_map]
    by_cases hac : a = c
    · have hp : ((fun j => colors j == c) 0) = true := by simp [h0, hac]
      rw [List.find?_cons_of_pos (p := fun j => colors j == c) (a := 0) _ hp]
      rw [if_pos (by simp [hac])]
      subst hac
      rw [List.indexOf_cons_self]
    · have hp : ¬ (((fun j => colors j == c) 0) = true) := by simp [h0, hac]
      rw [List.find?_cons_of_neg (p := fun j => colors j == c) (a := 0) _ hp]
      rw [List.find?_map]
      have hconv : ((fun j => colors j == c) ∘ Nat.succ) = (fun j => colors (j + 1) == c) := rfl
      rw [hconv]
      have hcol' : ∀ j, j < t.length → colors (j + 1) = t.getD j 0 := by
        intro j hj
        have := hcol (j + 1) (by simp; omega)
        simpa using this
      rw [ih (fun j => colors (j + 1)) c hcol']
      by_cases hct : c ∈ t
      · rw [if_pos hct, if_pos (by simp [hct])]
        rw [List.indexOf_cons_ne _ hac]
        rfl
      · rw [if_neg hct, if_neg (by simp [hct]; omega)]
        rfl

theorem foldl_specInsert_extends : ∀ (cs : List Nat) (p : List Nat),
    ∃ t, cs.foldl specInsert p = p ++ t := by
  intro cs
  induction cs with
  | nil => intro p; exact ⟨[], by simp⟩
  | cons c cs ih =>
    intro p
    rw [List.foldl_cons]
    obtain ⟨t, ht⟩ := ih (specInsert p c)
    unfold specInsert at ht ⊢
    by_cases hc : c ∈ p
    · rw [if_pos hc] at ht ⊢
      exact ⟨t, ht⟩
    · rw [if_neg hc] at ht ⊢
      exact ⟨[c] ++ t, by rw [ht, List.append_assoc]⟩

theorem foldl_specInsert_indexOf (cs : List Nat) (p : List Nat) (c : Nat) (hc : c ∈ p) :
    List.indexOf c (cs.foldl specInsert p) = List.indexOf c p := by
  obtain ⟨t, ht⟩ := foldl_specInsert_extends cs p
  rw [ht, List.indexOf_append_of_mem hc]

theorem foldl_specInsert_le : ∀ (cs : List Nat) (p : List Nat),
    p.length ≤ (cs.foldl specInsert p).length := by
  intro cs p
  obtain ⟨t, ht⟩ := foldl_specInsert_extends cs p
  rw [ht]
  simp

theorem scanStep_abs (s : ScanState) (p : List Nat) (c : Nat)
    (hcc : s.cc = p.length) (hcol : ∀ j, j < p.length → s.colors j = p.getD j 0)
    (hroom : (specInsert p c).length ≤ 255) :
    (scanStep s c).cc = (specInsert p c).length ∧
    (∀ j, j < (specInsert p c).length → (scanStep s c).colors j = (specInsert p c).getD j 0) ∧
    (scanStep s c).indices = s.indices ++ [List.indexOf c (specInsert p c)] := by
  have hfind : (List.range s.cc).find? (fun j => s.colors j == c)
      = if c ∈ p then some (p.indexOf c) else none := by
    rw [hcc]
    exact find_range_eq p s.colors c hcol
  by_cases hc : c ∈ p
  · have hidx : scanIdx s c = p.indexOf c := by
      unfold scanIdx
      rw [hfind, if_pos hc]
      rfl
    have hlt : p.indexOf c < p.length := List.indexOf_lt_length.mpr hc
    have hne : scanIdx s c ≠ s.cc := by
      rw [hidx, hcc]
      omega
    unfold scanStep
    rw [if_neg hne]
    unfold specInsert
    rw [if_pos hc]
    exact ⟨hcc, hcol, by rw [hidx]⟩
  · have hidx : scanIdx s c = s.cc := by
      unfold scanIdx
      rw [hfind, if_neg hc]
      rfl
    have hlen : (specInsert p c).length = p.length + 1 := by
      unfold specInsert
      rw [if_neg hc]
      simp
    unfold scanStep
    rw [if_pos hidx]
    refine ⟨?_, ?_, ?_⟩
    · show (s.cc + 1) % 256 = (specInsert p c).length
      rw [hlen, hcc]
      omega
    · intro j hj
      rw [hlen] at hj
      show (if j = s.cc then c else s.colors j) = (specInsert p c).getD j 0
      unfold specInsert
      rw [if_neg hc]
      by_cases hjc : j = s.cc
      · rw [if_pos hjc, getD_append_of_ge _ _ _ (by omega), hjc, hcc]
        simp
      · rw [if_neg hjc, getD_append_of_lt _ _ _ (by omega)]
        exact hcol j (by omega)
    · show s.indices ++ [scanIdx s c] = s.indices ++ [List.indexOf c (specInsert p c)]
      rw [hidx, hcc]
      unfold specInsert
      rw [if_neg hc, List.indexOf_append_of_not_mem hc]
      simp

theorem scan_fold_abs : ∀ (cs : List Nat) (s : ScanState) (p : List Nat),
    s.cc = p.length →
    (∀ j, j < p.length → s.colors j = p.getD j 0) →
    (cs.foldl specInsert p).length ≤ 255 →
    (cs.foldl scanStep s).cc = (cs.foldl specInsert p).length ∧
    (∀ j, j < (cs.foldl specInsert p).length →
      (cs.foldl scanStep s).colors j = (cs.foldl specInsert p).getD j 0) ∧
    (cs.foldl scanStep s).indices
      = s.indices ++ cs.map (fun c => List.indexOf c (cs.foldl specInsert p)) := by
  intro cs
  induction cs with
  | nil =>
    intro s p hcc hcol hbound
    exact ⟨hcc, hcol, by simp⟩
  | cons c cs ih =>
    intro s p hcc hcol hbound
    simp only [List.foldl_cons] at hbound ⊢
    have hroom : (specInsert p c).length ≤ 255 :=
      le_trans (foldl_specInsert_le cs (specInsert p c)) hbound
    obtain ⟨hcc1, hcol1, hind1⟩ := scanStep_abs s p c hcc hcol hroom
    obtain ⟨hcc2, hcol2, hind2⟩ := ih (scanStep s c) (specInsert p c) hcc1 hcol1 hbound
    refine ⟨hcc2, hcol2, ?_⟩
    have hcmem : c ∈ specInsert p c := by
      unfold specInsert
      by_cases hc : c ∈ p
      · rw [if_pos hc]; exact hc
      · rw [if_neg hc]; simp
    rw [hind2, hind1, List.map_cons,
      foldl_specInsert_indexOf cs (specInsert p c) c hcmem]
    simp

theorem scanPixels_abs (px : Nat → Nat) (stride n : Nat)
    (hbound : (firstOccur (colorList px stride n)).length ≤ 255) :
    paletteList (scanPixels px stride n) = firstOccur (colorList px stride n) ∧
    (scanPixels px stride n).indices
      = (colorList px stride n).map (fun c => List.indexOf c (firstOccur (colorList px stride n))) := by
  unfold firstOccur at hbound ⊢
  unfold scanPixels paletteList
  have h := scan_fold_abs (colorList px stride n) scanInit []
    (by simp [scanInit]) (by intro j hj; simp at hj) hbound
  obtain ⟨hcc, hcol, hind⟩ := h
  constructor
  · apply List.ext_getElem
    · simp [hcc]
    · intro i h1 h2
      simp only [List.getElem_map, List.getElem_range]
      have hi : i < (List.foldl specInsert [] (colorList px stride n)).length := by
        simp only [List.length_map, List.length_range] at h1
        rw [hcc] at h1
        exact h1
      rw [hcol i hi, List.getD_eq_getElem?_getD, List.getElem?_eq_getElem hi]
      rfl
  · rw [hind]
    simp [scanInit]

theorem scanStep_fresh (s : ScanState) (c : Nat)
    (hnone : (List.range s.cc).find? (fun j => s.colors j == c) = none) :
    scanStep s c = { colors := fun n => if n = s.cc then c else s.colors n,
                     cc := (s.cc + 1) % 256, indices := s.indices ++ [s.cc] } := by
  have hidx : scanIdx s c = s.cc := by
    unfold scanIdx
    rw [hnone]
    rfl
  unfold scanStep
  rw [hidx, if_pos rfl]

theorem scan_range_state : ∀ k : Nat, k ≤ 256 →
    (List.range k).foldl scanStep scanInit
      = { colors := fun n => if n < k then n else 0, cc := k % 256,
          indices := List.range k } := by
  intro k
  induction k with
  | zero =>
    intro hk
    simp only [List.range_zero, List.foldl_nil]
    unfold scanInit
    have hc : (fun n => if n < 0 then n else (0 : Nat)) = (fun _ : Nat => (0 : Nat)) := by
      funext n
      simp
    rw [hc]
  | succ k ih =>
    intro hk
    rw [List.range_succ, List.foldl_append, ih (by omega)]
    simp only [List.foldl_cons, List.foldl_nil]
    have hkm : k % 256 = k := Nat.mod_eq_of_lt (by omega)
    have hfind : (List.range (k % 256)).find?
        (fun j => (if j < k then j else (0 : Nat)) == k) = none := by
      rw [List.find?_eq_none]
      intro x hx
      rw [hkm, List.mem_range] at hx
      simp only [if_pos hx, beq_iff_eq]
      omega
    rw [scanStep_fresh { colors := fun n => if n < k then n else 0, cc := k % 256,
                         indices := List.range k } k hfind]
    show ({ colors := fun n => if n = k % 256 then k else (if n < k then n else 0),
            cc := (k % 256 + 1) % 256,
            indices := List.range k ++ [k % 256] } : ScanState)
        = { colors := fun n => if n < k + 1 then n else 0, cc := (k + 1) % 256,
            indices := List.range k ++ [k] }
    have hc : (fun n => if n = k % 256 then k else (if n < k then n else (0 : Nat)))
        = (fun n => if n < k + 1 then n else 0) := by
      funext n
      rw [hkm]
      by_cases h1 : n = k
      · subst h1
        simp
      · rw [if_neg h1]
        by_cases h2 : n < k
        · rw [if_pos h2, if_pos (by omega)]
        · rw [if_neg h2, if_neg (by omega)]
    rw [hc, hkm]

theorem colorList_pxWrap : colorList pxWrap 3 257 = List.range 256 ++ [5] := by decide

theorem scanPixels_pxWrap :
    scanPixels pxWrap 3 257
      = { colors := fun n => if n = 0 then 5 else (if n < 256 then n else 0),
          cc := 1, indices := List.range 256 ++ [0] } := by
  unfold scanPixels
  rw [colorList_pxWrap, List.foldl_append, scan_range_state 256 (by omega)]
  simp only [List.foldl_cons, List.foldl_nil]
  have hfind : (List.range ((256 : Nat) % 256)).find?
      (fun j => (if j < 256 then j else (0 : Nat)) == 5) = none := by decide
  rw [scanStep_fresh { colors := fun n => if n < 256 then n else 0, cc := 256 % 256,
                       indices := List.range 256 } 5 hfind]
  show ({ colors := fun n => if n = 256 % 256 then 5 else (if n < 256 then n else 0),
          cc := (256 % 256 + 1) % 256,
          indices := List.range 256 ++ [256 % 256] } : ScanState)
      = { colors := fun n => if n = 0 then 5 else (if n < 256 then n else 0),
          cc := 1, indices := List.range 256 ++ [0] }
  norm_num


/-- C6 (amended): palette lookup during encoding is find-or-insert by exact
match on the packed color, for every pixel buffer whose scan encounters at
most 255 distinct colors: a color already in the palette resolves to its
existing (first-match) index, a new color is appended, the materialized
palette (`color_count` entries of the `colors` array) lists the scanned colors
in strict first-occurrence order of the left-to-right top-to-bottom scan, and
every pixel's emitted index is the index of its color in that palette.  (The
restriction to 255 is forced by the code: at the 256th insertion the
single-byte `color_count` wraps to 0 and later lookups break — see the
counterexample.) -/
theorem c6_find_or_insert_amended (w h ha ep : Nat) (px : Nat → Nat)
    (hbound : (firstOccur (colorList px (pie_stride (encodeHeader w h ha ep))
      (w * h))).length ≤ 255) :
    paletteList (encodeScan w h ha ep px)
      = firstOccur (colorList px (pie_stride (encodeHeader w h ha ep)) (w * h)) ∧
    (encodeScan w h ha ep px).indices
      = (colorList px (pie_stride (encodeHeader w h ha ep)) (w * h)).map
          (fun c => List.indexOf c
            (firstOccur (colorList px (pie_stride (encodeHeader w h ha ep)) (w * h)))) := by
  unfold encodeScan
  exact scanPixels_abs px _ _ hbound

/-- Witness for C6 (amended) at a concrete input: the 3×1 RGB image with colors
`(5,0,0), (9,0,0), (5,0,0)` yields the palette `[5, 9]` (packed colors, in
first-occurrence order) and the index stream `[0, 1, 0]`. -/
theorem c6_witness :
    (paletteList (encodeScan 3 1 0 0
        (fun i => if i % 3 = 0 then [5, 9, 5].getD (i / 3) 0 else 0))
      = firstOccur (colorList (fun i => if i % 3 = 0 then [5, 9, 5].getD (i / 3) 0 else 0)
          (pie_stride (encodeHeader 3 1 0 0)) (3 * 1)) ∧
     (encodeScan 3 1 0 0 (fun i => if i % 3 = 0 then [5, 9, 5].getD (i / 3) 0 else 0)).indices
      = (colorList (fun i => if i % 3 = 0 then [5, 9, 5].getD (i / 3) 0 else 0)
          (pie_stride (encodeHeader 3 1 0 0)) (3 * 1)).map
          (fun c => List.indexOf c
            (firstOccur (colorList (fun i => if i % 3 = 0 then [5, 9, 5].getD (i / 3) 0 else 0)
              (pie_stride (encodeHeader 3 1 0 0)) (3 * 1))))) ∧
    paletteList (encodeScan 3 1 0 0
        (fun i => if i % 3 = 0 then [5, 9, 5].getD (i / 3) 0 else 0)) = [5, 9] ∧
    (encodeScan 3 1 0 0 (fun i => if i % 3 = 0 then [5, 9, 5].getD (i / 3) 0 else 0)).indices
      = [0, 1, 0] :=
  ⟨c6_find_or_insert_amended 3 1 0 0
      (fun i => if i % 3 = 0 then [5, 9, 5].getD (i / 3) 0 else 0) (by decide),
   by decide, by decide⟩

/-- C6 (counterexample): find-or-insert breaks at 256 distinct colors.  In
`pxWrap` (256 pairwise distinct colors followed by a repeat of the color of
pixel 5), pixel 5's color got index 5, yet pixel 256 — the same packed color —
gets index 0, because inserting the 256th color wrapped the single-byte
`color_count` to 0 and emptied the search window; the materialized palette
collapses to `[5]`, not the 257-pixel scan's first-occurrence list. -/
theorem c6_counterexample :
    packColor pxWrap 3 256 = packColor pxWrap 3 5 ∧
    (scanPixels pxWrap 3 257).indices.getD 5 0 = 5 ∧
    (scanPixels pxWrap 3 257).indices.getD 256 0 = 0 ∧
    paletteList (scanPixels pxWrap 3 257) = [5] ∧
    (5 : Nat) ≠ 0 := by
  rw [scanPixels_pxWrap]
  refine ⟨by decide, ?_, ?_, ?_, by decide⟩ <;> decide
